import Mathlib

/-!
Verification of the EventDiff schema-governance CLI.

The definitions below are a shallow embedding of the policy-aware script
variant (the authoritative one per the design notes): severity ranking and
strictest-wins merging (`SEV_RANK`, `maxSev`, `sevForOwner`), type
normalization (`normalizeType`), schema flattening (`flatten`), enum set
difference (`enumDiff`), the per-file schema diff (`diff`), and the run
aggregation with its exit code (`runEventDiff`).

Modelling conventions: JS `Set` iteration order is first-occurrence order
(`dedupFirst`); `Array.sort()` over the string values appearing here is
`sortStr`; configured severities are the closed three-value type `Sev`;
external collaborators (git retrieval, JSON parsing) are modelled by the
`SideContent` outcome type.
-/

namespace EventDiff

/-- Severity of a change: `pass < warn < block`. -/
inductive Sev where
  | pass
  | warn
  | block
deriving DecidableEq, Repr, Fintype

/-- `SEV_RANK = { pass: 0, warn: 1, block: 2 }`. -/
def SEV_RANK : Sev → Nat
  | .pass => 0
  | .warn => 1
  | .block => 2

/-- `maxSev(a, b)`: the stricter of two severities (ties pick `a`). -/
def maxSev (a b : Sev) : Sev :=
  if SEV_RANK a ≥ SEV_RANK b then a else b

/-- The built-in default severity table `DEFAULT_POLICY`. -/
def DEFAULT_POLICY : String → Option Sev
  | "FIELD_REMOVED_REQUIRED" => some .block
  | "FIELD_REMOVED_OPTIONAL" => some .warn
  | "FIELD_ADDED_REQUIRED" => some .block
  | "FIELD_ADDED_OPTIONAL" => some .pass
  | "REQUIRED_BECOMES_REQUIRED" => some .block
  | "REQUIRED_BECOMES_OPTIONAL" => some .warn
  | "TYPE_CHANGED" => some .block
  | "ENUM_VALUE_REMOVED" => some .block
  | "ENUM_VALUE_ADDED" => some .pass
  | "FILE_REMOVED" => some .block
  | "FILE_ADDED" => some .pass
  | "INVALID_JSON" => some .block
  | _ => none

/-- The loaded policy configuration: `POLICY_DEFAULT` entries that came from
`eventdiff.config.json` (absent keys fall back to `DEFAULT_POLICY`), and
`POLICY_OVERRIDES_BY_OWNER`. -/
structure PolicyConfig where
  policyDefault : String → Option Sev
  overridesByOwner : String → Option (String → Option Sev)

/-- The configuration in force when `eventdiff.config.json` is missing. -/
def defaultPolicyConfig : PolicyConfig :=
  { policyDefault := fun _ => none, overridesByOwner := fun _ => none }

/-- `POLICY_DEFAULT[key] || "warn"`: configured default, else built-in
default, else `warn` for a wholly unrecognized key. -/
def policyDefaultFor (cfg : PolicyConfig) (key : String) : Sev :=
  match cfg.policyDefault key with
  | some s => s
  | none => (DEFAULT_POLICY key).getD .warn

/-- The override a given owner team's policy holds for `key`, if any
(`POLICY_OVERRIDES_BY_OWNER[team]` and then `teamPolicy[key]`). -/
def overrideFor (cfg : PolicyConfig) (key team : String) : Option Sev :=
  match cfg.overridesByOwner team with
  | some teamPolicy => teamPolicy key
  | none => none

/-- One step of the owner-override loop in `sevForOwner`:
`if (override) s = maxSev(s, override)`. -/
def applyOverride (cfg : PolicyConfig) (key : String) (s : Sev) (team : String) : Sev :=
  match overrideFor cfg key team with
  | some override => maxSev s override
  | none => s

/-- `sevForOwner(key, ownerTeams)`: start from the effective default and fold
the strictest-wins merge over every owner team. -/
def sevForOwner (cfg : PolicyConfig) (key : String) (ownerTeams : List String) : Sev :=
  ownerTeams.foldl (applyOverride cfg key) (policyDefaultFor cfg key)

/-- The owner-team overrides that exist for `key`, in team-list order. -/
def ownerOverrides (cfg : PolicyConfig) (key : String) (ownerTeams : List String) : List Sev :=
  ownerTeams.filterMap (overrideFor cfg key)

/-- The strictness order on severities. -/
def sevLe (a b : Sev) : Prop := SEV_RANK a ≤ SEV_RANK b

instance : DecidableRel sevLe := fun a b =>
  inferInstanceAs (Decidable (SEV_RANK a ≤ SEV_RANK b))

theorem sevLe_refl : ∀ a, sevLe a a := by decide

theorem sevLe_trans : ∀ a b c, sevLe a b → sevLe b c → sevLe a c := by decide

theorem sevLe_maxSev_left : ∀ a b, sevLe a (maxSev a b) := by decide

theorem sevLe_maxSev_right : ∀ a b, sevLe b (maxSev a b) := by decide

theorem maxSev_eq_left_or_right : ∀ a b, maxSev a b = a ∨ maxSev a b = b := by decide

theorem maxSev_right_comm : ∀ z x y, maxSev (maxSev z x) y = maxSev (maxSev z y) x := by
  decide

theorem foldl_maxSev_le_init (l : List Sev) (d : Sev) : sevLe d (l.foldl maxSev d) := by
  induction l generalizing d with
  | nil => exact sevLe_refl d
  | cons a l ih =>
    exact sevLe_trans _ _ _ (sevLe_maxSev_left d a) (ih (maxSev d a))

theorem foldl_maxSev_le_mem (l : List Sev) (d : Sev) :
    ∀ o ∈ l, sevLe o (l.foldl maxSev d) := by
  induction l generalizing d with
  | nil => intro o ho; cases ho
  | cons a l ih =>
    intro o ho
    rcases List.mem_cons.mp ho with h | h
    · subst h
      exact sevLe_trans _ _ _ (sevLe_maxSev_right d o) (foldl_maxSev_le_init l (maxSev d o))
    · exact ih (maxSev d a) o h

theorem foldl_maxSev_mem (l : List Sev) (d : Sev) :
    l.foldl maxSev d = d ∨ l.foldl maxSev d ∈ l := by
  induction l generalizing d with
  | nil => exact Or.inl rfl
  | cons a l ih =>
    rcases ih (maxSev d a) with h | h
    · rw [List.foldl_cons, h]
      rcases maxSev_eq_left_or_right d a with h' | h'
      · exact Or.inl h'
      · exact Or.inr (by rw [h']; exact List.mem_cons_self a l)
    · exact Or.inr (List.mem_cons_of_mem a h)

theorem sevForOwner_eq_foldl_overrides (cfg : PolicyConfig) (key : String)
    (teams : List String) (d : Sev) :
    teams.foldl (applyOverride cfg key) d = (ownerOverrides cfg key teams).foldl maxSev d := by
  induction teams generalizing d with
  | nil => rfl
  | cons t ts ih =>
    rw [List.foldl_cons]
    unfold ownerOverrides
    rw [List.filterMap_cons]
    cases hov : overrideFor cfg key t with
    | none =>
      have h1 : applyOverride cfg key d t = d := by unfold applyOverride; rw [hov]
      rw [h1]
      exact ih d
    | some o =>
      have h1 : applyOverride cfg key d t = maxSev d o := by unfold applyOverride; rw [hov]
      rw [h1]
      exact ih (maxSev d o)

theorem sevForOwner_perm (cfg : PolicyConfig) (key : String) {teams teams' : List String}
    (h : teams.Perm teams') : sevForOwner cfg key teams = sevForOwner cfg key teams' := by
  unfold sevForOwner
  rw [sevForOwner_eq_foldl_overrides, sevForOwner_eq_foldl_overrides]
  exact (h.filterMap _).foldl_eq'
    (fun x _ y _ z => maxSev_right_comm z x y) (policyDefaultFor cfg key)

/-- C1: `sevForOwner` returns the maximum, under `pass < warn < block`, of the
effective default severity for the key (configured default, falling back to
the built-in table, falling back to `warn` for an unrecognized key) and every
owner-team override that exists for the key; an owner override of `pass` when
the default is `warn` still yields `warn` (the merge is max, never min), and
the result does not depend on the order of the owner-team list. -/
theorem claim_sevForOwner_strictest_wins (cfg : PolicyConfig) (key : String)
    (teams : List String) :
    (sevLe (policyDefaultFor cfg key) (sevForOwner cfg key teams)
      ∧ (∀ o ∈ ownerOverrides cfg key teams, sevLe o (sevForOwner cfg key teams))
      ∧ (sevForOwner cfg key teams = policyDefaultFor cfg key
          ∨ sevForOwner cfg key teams ∈ ownerOverrides cfg key teams))
    ∧ (∀ teams', teams.Perm teams' → sevForOwner cfg key teams = sevForOwner cfg key teams')
    ∧ (policyDefaultFor cfg key = Sev.warn →
        (∀ o ∈ ownerOverrides cfg key teams, o = Sev.pass ∨ o = Sev.warn) →
        sevForOwner cfg key teams = Sev.warn)
    ∧ (cfg.policyDefault key = none → DEFAULT_POLICY key = none →
        policyDefaultFor cfg key = Sev.warn) := by
  have hfold : sevForOwner cfg key teams
      = (ownerOverrides cfg key teams).foldl maxSev (policyDefaultFor cfg key) :=
    sevForOwner_eq_foldl_overrides cfg key teams (policyDefaultFor cfg key)
  refine ⟨⟨?_, ?_, ?_⟩, ?_, ?_, ?_⟩
  · rw [hfold]; exact foldl_maxSev_le_init _ _
  · intro o ho; rw [hfold]; exact foldl_maxSev_le_mem _ _ o ho
  · rw [hfold]; exact foldl_maxSev_mem _ _
  · intro teams' hp; exact sevForOwner_perm cfg key hp
  · intro hdef hall
    have hle : sevLe (policyDefaultFor cfg key) (sevForOwner cfg key teams) := by
      rw [hfold]; exact foldl_maxSev_le_init _ _
    have hmem : sevForOwner cfg key teams = policyDefaultFor cfg key
        ∨ sevForOwner cfg key teams ∈ ownerOverrides cfg key teams := by
      rw [hfold]; exact foldl_maxSev_mem _ _
    rcases hmem with h | h
    · rw [h, hdef]
    · rcases hall _ h with h' | h'
      · rw [hdef] at hle
        rw [h'] at hle
        exact absurd hle (by decide)
      · exact h'
  · intro h1 h2
    unfold policyDefaultFor
    rw [h1, h2]
    rfl

/-! ### Set and sort helpers

`dedupFirst` models a JS `Set` built from an array: one entry per distinct
value, in first-occurrence order. `sortStr` models `Array.sort()` on the
string arrays appearing here. -/

/-- Worker for `dedupFirst`: drop values already `seen`. -/
def dedupFirstAux {α : Type} [DecidableEq α] (seen : List α) : List α → List α
  | [] => []
  | x :: xs => if x ∈ seen then dedupFirstAux seen xs else x :: dedupFirstAux (x :: seen) xs

/-- The distinct values of `l` in first-occurrence order (`new Set(l)`). -/
def dedupFirst {α : Type} [DecidableEq α] (l : List α) : List α :=
  dedupFirstAux [] l

theorem mem_dedupFirstAux {α : Type} [DecidableEq α] (l : List α) (seen : List α) (a : α) :
    a ∈ dedupFirstAux seen l ↔ a ∈ l ∧ a ∉ seen := by
  induction l generalizing seen with
  | nil => simp [dedupFirstAux]
  | cons x xs ih =>
    by_cases hx : x ∈ seen
    · simp only [dedupFirstAux, if_pos hx, ih, List.mem_cons]
      constructor
      · rintro ⟨h1, h2⟩; exact ⟨Or.inr h1, h2⟩
      · rintro ⟨h1 | h1, h2⟩
        · exact absurd (h1 ▸ hx) h2
        · exact ⟨h1, h2⟩
    · simp only [dedupFirstAux, if_neg hx, List.mem_cons, ih]
      constructor
      · rintro (rfl | ⟨h1, h2⟩)
        · exact ⟨Or.inl rfl, hx⟩
        · exact ⟨Or.inr h1, fun hc => h2 (Or.inr hc)⟩
      · rintro ⟨h1 | h1, h2⟩
        · exact Or.inl h1
        · by_cases hax : a = x
          · exact Or.inl hax
          · exact Or.inr ⟨h1, fun hc => by
              rcases hc with h | h
              · exact hax h
              · exact h2 h⟩

theorem mem_dedupFirst {α : Type} [DecidableEq α] (l : List α) (a : α) :
    a ∈ dedupFirst l ↔ a ∈ l := by
  unfold dedupFirst
  rw [mem_dedupFirstAux]
  simp

theorem nodup_dedupFirstAux {α : Type} [DecidableEq α] (l : List α) (seen : List α) :
    (dedupFirstAux seen l).Nodup := by
  induction l generalizing seen with
  | nil => exact List.nodup_nil
  | cons x xs ih =>
    by_cases hx : x ∈ seen
    · rw [dedupFirstAux, if_pos hx]; exact ih seen
    · rw [dedupFirstAux, if_neg hx]
      refine List.nodup_cons.mpr ⟨fun hc => ?_, ih (x :: seen)⟩
      exact ((mem_dedupFirstAux xs (x :: seen) x).mp hc).2 (List.mem_cons_self x seen)

theorem nodup_dedupFirst {α : Type} [DecidableEq α] (l : List α) : (dedupFirst l).Nodup :=
  nodup_dedupFirstAux l []

/-- `Array.sort()` on an array of strings. -/
def sortStr (l : List String) : List String :=
  l.insertionSort (· ≤ ·)

theorem sortStr_sorted (l : List String) : (sortStr l).Sorted (· ≤ ·) :=
  List.sorted_insertionSort (· ≤ ·) l

theorem sortStr_perm (l : List String) : (sortStr l).Perm l :=
  List.perm_insertionSort (· ≤ ·) l

theorem mem_sortStr (l : List String) (a : String) : a ∈ sortStr l ↔ a ∈ l :=
  (sortStr_perm l).mem_iff

theorem nodup_sortStr (l : List String) (h : l.Nodup) : (sortStr l).Nodup :=
  ((sortStr_perm l).nodup_iff).mpr h

/-- Two lists of distinct strings with the same members sort to the same
sorted list. -/
theorem sortStr_eq_of_mem_iff {l1 l2 : List String} (h1 : l1.Nodup) (h2 : l2.Nodup)
    (hm : ∀ a, a ∈ l1 ↔ a ∈ l2) : sortStr l1 = sortStr l2 := by
  have hperm : (sortStr l1).Perm (sortStr l2) := by
    refine ((List.perm_ext_iff_of_nodup (nodup_sortStr l1 h1) (nodup_sortStr l2 h2)).mpr ?_)
    intro a
    rw [mem_sortStr, mem_sortStr]
    exact hm a
  exact List.eq_of_perm_of_sorted hperm (sortStr_sorted l1) (sortStr_sorted l2)

/-! ### Type normalization -/

/-- The `type` field of a schema node as the source reads it: an array of
primitive names, a single string, or anything else (undeclared). -/
inductive TypeDecl where
  | arr (names : List String)
  | str (name : String)
  | undeclared
deriving DecidableEq, Repr

/-- Result of `normalizeType`. -/
structure NormType where
  type : String
  nullable : Bool
deriving DecidableEq, Repr

/-- `normalizeType(t)` from the source: an array becomes the sorted
pipe-join of its distinct non-null names (`unknown` when nothing remains),
nullable iff the array holds `"null"`; a string is itself; anything else is
`unknown`. -/
def normalizeType : TypeDecl → NormType
  | .arr t =>
    let set := dedupFirst t
    let nullable := set.contains "null"
    let rest := sortStr (set.filter (fun v => v != "null"))
    { type :=
        match rest with
        | [x] => x
        | [] => "unknown"
        | xs => String.intercalate "|" xs,
      nullable := nullable }
  | .str s => { type := s, nullable := false }
  | .undeclared => { type := "unknown", nullable := false }

/-- The non-null names of an array declaration, deduplicated and sorted:
what the claim says the pipe-join ranges over. -/
def nonNullNames (t : List String) : List String :=
  sortStr (dedupFirst (t.filter (fun v => v != "null")))

theorem normalizeType_arr_type (t : List String) :
    (normalizeType (.arr t)).type =
      if nonNullNames t = [] then "unknown" else String.intercalate "|" (nonNullNames t) := by
  have hrest : sortStr ((dedupFirst t).filter (fun v => v != "null")) = nonNullNames t := by
    unfold nonNullNames
    refine sortStr_eq_of_mem_iff (List.Nodup.filter _ (nodup_dedupFirst t))
      (nodup_dedupFirst _) ?_
    intro a
    simp only [List.mem_filter, mem_dedupFirst]
  show (match sortStr ((dedupFirst t).filter (fun v => v != "null")) with
        | [x] => x
        | [] => "unknown"
        | xs => String.intercalate "|" xs) = _
  rw [hrest]
  rcases hn : nonNullNames t with _ | ⟨x, _ | ⟨y, ys⟩⟩
  · simp
  · rfl
  · simp

/-- C3: `normalizeType` sends an array declaration to the sorted pipe-joined
union of its distinct non-null names (a single name stands alone, an empty
remainder gives `unknown`) with nullable true iff the array holds `"null"`;
a string declaration to that string, not nullable; anything else to
`unknown`, not nullable — so the nullable flag is true exactly when the
declaration is an array holding the null marker. -/
theorem claim_normalizeType_spec :
    (∀ t : List String,
        normalizeType (.arr t) =
          { type := if nonNullNames t = [] then "unknown"
                    else String.intercalate "|" (nonNullNames t),
            nullable := decide ("null" ∈ t) })
    ∧ (∀ s : String, normalizeType (.str s) = { type := s, nullable := false })
    ∧ normalizeType .undeclared = { type := "unknown", nullable := false }
    ∧ (∀ d : TypeDecl,
        ((normalizeType d).nullable = true ↔ ∃ t, d = .arr t ∧ "null" ∈ t)) := by
  have harr : ∀ t : List String, (normalizeType (.arr t)).nullable = decide ("null" ∈ t) := by
    intro t
    show (dedupFirst t).contains "null" = decide ("null" ∈ t)
    simp only [List.contains, List.elem_eq_mem, decide_eq_decide]
    exact mem_dedupFirst t "null"
  refine ⟨?_, fun s => rfl, rfl, ?_⟩
  · intro t
    have h1 := normalizeType_arr_type t
    have h2 := harr t
    cases hval : normalizeType (.arr t) with
    | mk ty nb =>
      rw [hval] at h1 h2
      simp only at h1 h2
      rw [h1, h2]
  · intro d
    cases d with
    | arr t =>
      rw [harr t]
      simp only [decide_eq_true_eq]
      constructor
      · intro h; exact ⟨t, rfl, h⟩
      · rintro ⟨t', ht', hm⟩
        cases ht'
        exact hm
    | str s => simp [normalizeType]
    | undeclared => simp [normalizeType]

/-! ### Enum comparison -/

/-- Result of `enumDiff`. -/
structure EnumDiffRes where
  removed : List String
  added : List String
deriving DecidableEq, Repr

/-- `enumDiff(oldEnum, newEnum)` from the source: set difference both ways,
each result sorted (absent inputs are empty lists). -/
def enumDiff (oldEnum newEnum : Option (List String)) : EnumDiffRes :=
  let a := dedupFirst (oldEnum.getD [])
  let b := dedupFirst (newEnum.getD [])
  let removed := a.filter (fun v => !b.contains v)
  let added := b.filter (fun v => !a.contains v)
  { removed := sortStr removed, added := sortStr added }

theorem enumDiff_removed_mem (o n : Option (List String)) (v : String) :
    v ∈ (enumDiff o n).removed ↔ v ∈ o.getD [] ∧ v ∉ n.getD [] := by
  show v ∈ sortStr _ ↔ _
  rw [mem_sortStr, List.mem_filter, mem_dedupFirst]
  simp only [List.contains, List.elem_eq_mem, mem_dedupFirst, Bool.not_eq_eq_eq_not,
    Bool.not_true, decide_eq_false_iff_not]

theorem enumDiff_added_mem (o n : Option (List String)) (v : String) :
    v ∈ (enumDiff o n).added ↔ v ∈ n.getD [] ∧ v ∉ o.getD [] := by
  show v ∈ sortStr _ ↔ _
  rw [mem_sortStr, List.mem_filter, mem_dedupFirst]
  simp only [List.contains, List.elem_eq_mem, mem_dedupFirst, Bool.not_eq_eq_eq_not,
    Bool.not_true, decide_eq_false_iff_not]

/-- C2: `enumDiff` returns, sorted ascending and without duplicates, the
values present in the old list but not the new (`removed`) and those present
in the new list but not the old (`added`); an absent input acts as the empty
list, and `enumDiff(["x","y"], ["y","z"]) = {removed:["x"], added:["z"]}`. -/
theorem claim_enumDiff_set_difference (o n : Option (List String)) :
    ((enumDiff o n).removed.Sorted (· ≤ ·) ∧ (enumDiff o n).removed.Nodup
      ∧ (∀ v, v ∈ (enumDiff o n).removed ↔ v ∈ o.getD [] ∧ v ∉ n.getD []))
    ∧ ((enumDiff o n).added.Sorted (· ≤ ·) ∧ (enumDiff o n).added.Nodup
      ∧ (∀ v, v ∈ (enumDiff o n).added ↔ v ∈ n.getD [] ∧ v ∉ o.getD []))
    ∧ enumDiff (some ["x", "y"]) (some ["y", "z"]) = { removed := ["x"], added := ["z"] } := by
  refine ⟨⟨sortStr_sorted _, ?_, enumDiff_removed_mem o n⟩,
    ⟨sortStr_sorted _, ?_, enumDiff_added_mem o n⟩, by decide⟩
  · exact nodup_sortStr _ (List.Nodup.filter _ (nodup_dedupFirst _))
  · exact nodup_sortStr _ (List.Nodup.filter _ (nodup_dedupFirst _))

/-! ### Schema trees and flattening -/

/-- A schema node as the source reads it: a `type` declaration, an optional
`properties` object (key/value entries in insertion order), an optional
`required` array (a non-array is treated as absent, hence empty), and an
optional `enum` array. -/
inductive SNode where
  | mk (type : TypeDecl) (properties : Option (List (String × SNode)))
      (required : Option (List String)) (enum : Option (List String))

def SNode.type : SNode → TypeDecl
  | .mk t _ _ _ => t

def SNode.properties : SNode → Option (List (String × SNode))
  | .mk _ p _ _ => p

def SNode.required : SNode → Option (List String)
  | .mk _ _ r _ => r

def SNode.enum : SNode → Option (List String)
  | .mk _ _ _ e => e

/-- One flattened field descriptor. -/
structure FieldDesc where
  path : String
  type : String
  nullable : Bool
  required : Bool
  enum : Option (List String)
deriving DecidableEq, Repr

/-- Path composition: `path ? path + "." + k : k`. -/
def joinPath (path k : String) : String :=
  if path = "" then k else path ++ "." ++ k

mutual

/-- The recursive `walk` of `flatten`, returning the `(path, descriptor)`
records in the order they are inserted into the `fields` map: the current
node first (skipped at the root, whose path is empty), then each property
in object order, with the child required-name set computed from this node's
`required` array by prefixing the current path. -/
def walk : SNode → String → List String → List (String × FieldDesc)
  | .mk t props req en, path, requiredNames =>
    let nt := normalizeType t
    let here : List (String × FieldDesc) :=
      if path = "" then []
      else [(path, ⟨path, nt.type, nt.nullable, requiredNames.contains path, en⟩)]
    let children :=
      match props with
      | none => []
      | some ps => walkList ps path ((req.getD []).map (joinPath path))
    here ++ children

/-- `walk` over the entries of a `properties` object, in order. -/
def walkList : List (String × SNode) → String → List String → List (String × FieldDesc)
  | [], _, _ => []
  | (k, v) :: rest, path, childReq =>
    walk v (joinPath path k) childReq ++ walkList rest path childReq

end

/-- `flatten(schema)`: the flat path-to-descriptor map, as its insertion-order
record list. A null (or non-object) document yields no records. -/
def flatten : Option SNode → List (String × FieldDesc)
  | none => []
  | some node => walk node "" []

/-- The keys of a record list read as a JS `Map`: first-insertion order,
one entry per distinct path. -/
def snapKeys (s : List (String × FieldDesc)) : List String :=
  dedupFirst (s.map Prod.fst)

/-- `Map.get`: the value of the last insertion for a path, if any. -/
def snapGet (s : List (String × FieldDesc)) (p : String) : Option FieldDesc :=
  (s.reverse.find? (fun e => e.1 == p)).map Prod.snd

/-! ### The schema diff -/

/-- One classified change record. -/
structure Change where
  severity : Sev
  kind : String
  path : String
  message : String
deriving DecidableEq, Repr

/-- A per-file (or run) summary. -/
structure Summary where
  decision : String
  blocks : Nat
  warns : Nat
  passes : Nat
deriving DecidableEq, Repr

/-- `diff`'s result: summary plus ordered change list. -/
structure DiffResult where
  summary : Summary
  changes : List Change
deriving DecidableEq, Repr

/-- The body of `diff`'s per-path loop: the changes one path contributes. -/
def pathChanges (cfg : PolicyConfig) (ownerTeams : List String)
    (A B : List (String × FieldDesc)) (path : String) : List Change :=
  match snapGet A path, snapGet B path with
  | some a, none =>
    [{ severity := if a.required then sevForOwner cfg "FIELD_REMOVED_REQUIRED" ownerTeams
                   else sevForOwner cfg "FIELD_REMOVED_OPTIONAL" ownerTeams,
       kind := "FIELD_REMOVED", path := path,
       message := (if a.required then "Removed required field \'" else "Removed optional field \'")
                  ++ path ++ "\'." }]
  | none, some b =>
    [{ severity := if b.required then sevForOwner cfg "FIELD_ADDED_REQUIRED" ownerTeams
                   else sevForOwner cfg "FIELD_ADDED_OPTIONAL" ownerTeams,
       kind := "FIELD_ADDED", path := path,
       message := (if b.required then "Added required field \'" else "Added optional field \'")
                  ++ path ++ "\'." }]
  | none, none => []
  | some a, some b =>
    (if a.required != b.required then
      [{ severity := if !a.required && b.required
                     then sevForOwner cfg "REQUIRED_BECOMES_REQUIRED" ownerTeams
                     else sevForOwner cfg "REQUIRED_BECOMES_OPTIONAL" ownerTeams,
         kind := if !a.required && b.required then "REQUIRED_BECOMES_REQUIRED"
                 else "REQUIRED_BECOMES_OPTIONAL",
         path := path,
         message := if !a.required && b.required
                    then "Optional → required: \'" ++ path ++ "\'."
                    else "Required → optional: \'" ++ path ++ "\'." }]
     else [])
    ++ (if a.type != b.type || a.nullable != b.nullable then
      [{ severity := sevForOwner cfg "TYPE_CHANGED" ownerTeams,
         kind := "TYPE_CHANGED", path := path,
         message := "Type changed \'" ++ path ++ "\': "
                    ++ a.type ++ (if a.nullable then " (nullable)" else "")
                    ++ " → " ++ b.type ++ (if b.nullable then " (nullable)" else "") }]
      else [])
    ++ (let ed := enumDiff a.enum b.enum
        (if !ed.removed.isEmpty then
          [{ severity := sevForOwner cfg "ENUM_VALUE_REMOVED" ownerTeams,
             kind := "ENUM_VALUE_REMOVED", path := path,
             message := "Enum removed from \'" ++ path ++ "\': "
                        ++ String.intercalate ", " ed.removed }]
         else [])
        ++ (if !ed.added.isEmpty then
          [{ severity := sevForOwner cfg "ENUM_VALUE_ADDED" ownerTeams,
             kind := "ENUM_VALUE_ADDED", path := path,
             message := "Enum added to \'" ++ path ++ "\': "
                        ++ String.intercalate ", " ed.added }]
         else []))

/-- The core of `diff` once both schemas are flattened: iterate the sorted
union of paths, collect each path's changes, and aggregate the counts. -/
def diffSnapshots (cfg : PolicyConfig) (ownerTeams : List String)
    (A B : List (String × FieldDesc)) : DiffResult :=
  let paths := sortStr (dedupFirst (snapKeys A ++ snapKeys B))
  let changes := paths.flatMap (pathChanges cfg ownerTeams A B)
  let blocks := (changes.filter (fun c => c.severity == Sev.block)).length
  let warns := (changes.filter (fun c => c.severity == Sev.warn)).length
  let passes := (changes.filter (fun c => c.severity == Sev.pass)).length
  { summary := { decision := if blocks > 0 then "FAIL" else "PASS",
                 blocks := blocks, warns := warns, passes := passes },
    changes := changes }

/-- `diff(oldSchema, newSchema, ownerTeams)` from the source. -/
def diff (cfg : PolicyConfig) (ownerTeams : List String)
    (oldSchema newSchema : Option SNode) : DiffResult :=
  diffSnapshots cfg ownerTeams (flatten oldSchema) (flatten newSchema)

theorem mem_ite_singleton {α : Type} {c x : α} {cond : Prop} [Decidable cond]
    (h : c ∈ if cond then [x] else []) : c = x := by
  split at h
  · exact List.mem_singleton.mp h
  · cases h

theorem pathChanges_path_eq (cfg : PolicyConfig) (teams : List String)
    (A B : List (String × FieldDesc)) (p : String) :
    ∀ c ∈ pathChanges cfg teams A B p, c.path = p := by
  unfold pathChanges
  rcases snapGet A p with _ | a <;> rcases snapGet B p with _ | b <;> intro c hc
  · exact absurd hc (List.not_mem_nil c)
  · rw [List.mem_singleton.mp hc]
  · rw [List.mem_singleton.mp hc]
  · rcases List.mem_append.mp hc with h | h
    · rcases List.mem_append.mp h with h1 | h1
      · rw [mem_ite_singleton h1]
      · rw [mem_ite_singleton h1]
    · rcases List.mem_append.mp h with h1 | h1
      · rw [mem_ite_singleton h1]
      · rw [mem_ite_singleton h1]

theorem diffSnapshots_changes (cfg : PolicyConfig) (teams : List String)
    (A B : List (String × FieldDesc)) :
    (diffSnapshots cfg teams A B).changes
      = (sortStr (dedupFirst (snapKeys A ++ snapKeys B))).flatMap
          (pathChanges cfg teams A B) := rfl

theorem snapGet_isSome_of_mem_keys {s : List (String × FieldDesc)} {p : String}
    (h : p ∈ snapKeys s) : ∃ a, snapGet s p = some a := by
  unfold snapKeys at h
  rw [mem_dedupFirst] at h
  obtain ⟨e, he, hp⟩ := List.mem_map.mp h
  have hfind : (s.reverse.find? (fun e => e.1 == p)).isSome := by
    rw [List.find?_isSome]
    exact ⟨e, List.mem_reverse.mpr he, by rw [hp]; exact beq_self_eq_true _⟩
  obtain ⟨a, ha⟩ := Option.isSome_iff_exists.mp hfind
  exact ⟨a.2, by unfold snapGet; rw [ha]; rfl⟩

theorem enumDiff_self (e : Option (List String)) :
    enumDiff e e = { removed := [], added := [] } := by
  have h : (dedupFirst (e.getD [])).filter
      (fun v => !(dedupFirst (e.getD [])).contains v) = [] := by
    rw [List.filter_eq_nil_iff]
    intro a ha
    simp [List.contains, List.elem_eq_mem, ha]
  show ({ removed := sortStr ((dedupFirst (e.getD [])).filter
            (fun v => !(dedupFirst (e.getD [])).contains v)),
          added := sortStr ((dedupFirst (e.getD [])).filter
            (fun v => !(dedupFirst (e.getD [])).contains v)) } : EnumDiffRes) = _
  rw [h]
  rfl

theorem pathChanges_self_eq_nil (cfg : PolicyConfig) (teams : List String)
    {A B : List (String × FieldDesc)} {p : String} {a : FieldDesc}
    (hA : snapGet A p = some a) (hB : snapGet B p = some a) :
    pathChanges cfg teams A B p = [] := by
  simp [pathChanges, hA, hB, enumDiff_self]

/-- C7: diffing a snapshot against itself yields an empty change list and
summary PASS with zero counts. -/
theorem claim_diff_self_idempotent (cfg : PolicyConfig) (teams : List String)
    (S : List (String × FieldDesc)) :
    diffSnapshots cfg teams S S
      = { summary := { decision := "PASS", blocks := 0, warns := 0, passes := 0 },
          changes := [] } := by
  have hpc : ∀ p ∈ sortStr (dedupFirst (snapKeys S ++ snapKeys S)),
      pathChanges cfg teams S S p = [] := by
    intro p hp
    rw [mem_sortStr, mem_dedupFirst, List.mem_append, or_self] at hp
    obtain ⟨a, ha⟩ := snapGet_isSome_of_mem_keys hp
    exact pathChanges_self_eq_nil cfg teams ha ha
  have hch : (sortStr (dedupFirst (snapKeys S ++ snapKeys S))).flatMap
      (pathChanges cfg teams S S) = [] := List.flatMap_eq_nil_iff.mpr hpc
  unfold diffSnapshots
  simp only [hch, List.filter_nil, List.length_nil]
  rfl

theorem pairwise_flatMap_path {l : List String} (hl : l.Pairwise (· ≤ ·))
    {f : String → List Change} (hf : ∀ p, ∀ c ∈ f p, c.path = p) :
    (l.flatMap f).Pairwise (fun c d => c.path ≤ d.path) := by
  induction l with
  | nil => simp
  | cons x xs ih =>
    rw [List.flatMap_cons, List.pairwise_append]
    obtain ⟨hx, hxs⟩ := List.pairwise_cons.mp hl
    refine ⟨?_, ih hxs, ?_⟩
    · refine List.pairwise_of_forall_mem_list ?_
      intro a ha b hb
      rw [hf x a ha, hf x b hb]
    · intro a ha b hb
      obtain ⟨y, hy, hby⟩ := List.mem_flatMap.mp hb
      rw [hf x a ha, hf y b hby]
      exact hx y hy

theorem filter_flatMap_eq_nil {l : List String} {f : String → List Change}
    (hf : ∀ q, ∀ c ∈ f q, c.path = q) {p : String} (hp : p ∉ l) :
    ((l.flatMap f).filter (fun c => c.path == p)) = [] := by
  rw [List.filter_eq_nil_iff]
  intro c hc
  obtain ⟨q, hq, hcq⟩ := List.mem_flatMap.mp hc
  have : c.path = q := hf q c hcq
  simp only [this, beq_iff_eq]
  intro h
  exact hp (h ▸ hq)

theorem filter_flatMap_eq {l : List String} (hn : l.Nodup) {f : String → List Change}
    (hf : ∀ q, ∀ c ∈ f q, c.path = q) {p : String} (hp : p ∈ l) :
    ((l.flatMap f).filter (fun c => c.path == p)) = f p := by
  induction l with
  | nil => cases hp
  | cons q qs ih =>
    obtain ⟨hq, hqs⟩ := List.nodup_cons.mp hn
    rw [List.flatMap_cons, List.filter_append]
    rcases List.mem_cons.mp hp with h | h
    · subst h
      rw [filter_flatMap_eq_nil hf hq, List.filter_eq_self.mpr ?_, List.append_nil]
      intro c hc
      simp [hf p c hc]
    · rw [ih hqs h, List.filter_eq_nil_iff.mpr ?_, List.nil_append]
      intro c hc
      have hcq : c.path = q := hf q c hc
      simp only [hcq, beq_iff_eq]
      intro he
      exact hq (he ▸ h)

/-- C4: `diffSnapshots` (the pure core of `diff`) emits its change records in
ascending lexicographic path order; each change's path lies in the union of
the two snapshots' path sets, and each union path contributes exactly its
own per-path change group, so the output is a deterministic function of the
snapshots and owner set. -/
theorem claim_diff_ordered_deterministic (cfg : PolicyConfig) (teams : List String)
    (A B : List (String × FieldDesc)) :
    ((diffSnapshots cfg teams A B).changes.Pairwise (fun c d => c.path ≤ d.path))
    ∧ (∀ c ∈ (diffSnapshots cfg teams A B).changes,
        c.path ∈ snapKeys A ∨ c.path ∈ snapKeys B)
    ∧ (∀ p, (p ∈ snapKeys A ∨ p ∈ snapKeys B) →
        ((diffSnapshots cfg teams A B).changes.filter (fun c => c.path == p))
          = pathChanges cfg teams A B p) := by
  rw [diffSnapshots_changes]
  have hnodup : (sortStr (dedupFirst (snapKeys A ++ snapKeys B))).Nodup :=
    nodup_sortStr _ (nodup_dedupFirst _)
  have hmem : ∀ p, p ∈ sortStr (dedupFirst (snapKeys A ++ snapKeys B))
      ↔ (p ∈ snapKeys A ∨ p ∈ snapKeys B) := by
    intro p
    rw [mem_sortStr, mem_dedupFirst, List.mem_append]
  refine ⟨?_, ?_, ?_⟩
  · exact pairwise_flatMap_path (sortStr_sorted _) (pathChanges_path_eq cfg teams A B)
  · intro c hc
    obtain ⟨q, hq, hcq⟩ := List.mem_flatMap.mp hc
    rw [pathChanges_path_eq cfg teams A B q c hcq]
    exact (hmem q).mp hq
  · intro p hp
    exact filter_flatMap_eq hnodup (pathChanges_path_eq cfg teams A B) ((hmem p).mpr hp)

theorem walk_eq (t : TypeDecl) (props : Option (List (String × SNode)))
    (req en : Option (List String)) (path : String) (rs : List String) :
    walk (.mk t props req en) path rs =
      (if path = "" then []
       else [(path, ⟨path, (normalizeType t).type, (normalizeType t).nullable,
                     rs.contains path, en⟩)])
      ++ match props with
         | none => []
         | some ps => walkList ps path ((req.getD []).map (joinPath path)) := by
  rw [walk.eq_def]

theorem walkList_mem {ps : List (String × SNode)} {path : String} {cr : List String}
    {pr : String × FieldDesc} (h : pr ∈ walkList ps path cr) :
    ∃ e ∈ ps, pr ∈ walk e.2 (joinPath path e.1) cr := by
  induction ps with
  | nil => cases h
  | cons e rest ih =>
    obtain ⟨k, v⟩ := e
    rw [walkList] at h
    rcases List.mem_append.mp h with h | h
    · exact ⟨(k, v), List.mem_cons_self _ _, h⟩
    · obtain ⟨e', he', hm⟩ := ih h
      exact ⟨e', List.mem_cons_of_mem _ he', hm⟩

theorem walkList_mem_of {ps : List (String × SNode)} {path : String} {cr : List String}
    {k : String} {v : SNode} (hkv : (k, v) ∈ ps) {pr : String × FieldDesc}
    (h : pr ∈ walk v (joinPath path k) cr) : pr ∈ walkList ps path cr := by
  induction ps with
  | nil => cases hkv
  | cons e rest ih =>
    obtain ⟨k', v'⟩ := e
    rw [walkList]
    rcases List.mem_cons.mp hkv with he | he
    · obtain ⟨rfl, rfl⟩ := Prod.mk.injEq .. ▸ he
      exact List.mem_append.mpr (Or.inl h)
    · exact List.mem_append.mpr (Or.inr (ih he))

theorem sizeOf_snd_lt_node {ps : List (String × SNode)} {e : String × SNode}
    (h : e ∈ ps) (t : TypeDecl) (req en : Option (List String)) :
    sizeOf e.2 < sizeOf (SNode.mk t (some ps) req en) := by
  have h1 : sizeOf e < sizeOf ps := List.sizeOf_lt_of_mem h
  obtain ⟨k, v⟩ := e
  simp only [SNode.mk.sizeOf_spec, Prod.mk.sizeOf_spec, Option.some.sizeOf_spec] at *
  omega

theorem walk_paths_ne_empty_aux :
    ∀ (n : Nat) (node : SNode), sizeOf node ≤ n →
      ∀ (path : String) (rs : List String), ∀ pr ∈ walk node path rs, pr.1 ≠ "" := by
  intro n
  induction n with
  | zero =>
    intro node hn
    obtain ⟨t, props, req, en⟩ := node
    simp only [SNode.mk.sizeOf_spec] at hn
    omega
  | succ m ih =>
    intro node hn path rs pr hpr
    obtain ⟨t, props, req, en⟩ := node
    rw [walk_eq] at hpr
    rcases List.mem_append.mp hpr with h | h
    · split at h
      · cases h
      · next hpath =>
        rw [List.mem_singleton.mp h]
        exact hpath
    · rcases props with _ | ps
      · cases h
      · obtain ⟨e, he, hm⟩ := walkList_mem h
        have hlt : sizeOf e.2 < sizeOf (SNode.mk t (some ps) req en) :=
          sizeOf_snd_lt_node he t req en
        exact ih e.2 (by omega) _ _ pr hm

theorem walk_paths_ne_empty (node : SNode) (path : String) (rs : List String) :
    ∀ pr ∈ walk node path rs, pr.1 ≠ "" :=
  walk_paths_ne_empty_aux (sizeOf node) node (Nat.le_refl _) path rs

/-- C8: flattening `{type:"object", properties:{a:{type:"number"}},
required:["a"]}` yields exactly one descriptor, at path `"a"`, typed
`"number"` and required; in general a node's own record carries
`required = true` exactly when its full dotted path is in the required-name
set passed down by its parent, the parent recurses into each property at
path `parent.childKey` with the required-name set computed from its own
`required` array by prefixing its path, and no record is ever emitted at the
empty (root) path. -/
theorem claim_flatten_required_paths :
    (flatten (some (.mk (.str "object")
        (some [("a", .mk (.str "number") none none none)]) (some ["a"]) none))
      = [("a", { path := "a", type := "number", nullable := false,
                 required := true, enum := none })])
    ∧ (∀ (t : TypeDecl) (props : Option (List (String × SNode)))
        (req en : Option (List String)) (path : String) (rs : List String),
        path ≠ "" →
        ∃ fd rest, walk (.mk t props req en) path rs = (path, fd) :: rest
          ∧ (fd.required = true ↔ path ∈ rs))
    ∧ (∀ (node : SNode) (path : String) (rs : List String),
        ∀ pr ∈ walk node path rs, pr.1 ≠ "")
    ∧ (∀ (t : TypeDecl) (ps : List (String × SNode)) (req en : Option (List String))
        (path : String) (rs : List String) (k : String) (v : SNode),
        (k, v) ∈ ps →
        ∀ pr ∈ walk v (joinPath path k) ((req.getD []).map (joinPath path)),
          pr ∈ walk (.mk t (some ps) req en) path rs) := by
  refine ⟨by decide, ?_, walk_paths_ne_empty, ?_⟩
  · intro t props req en path rs hpath
    refine ⟨⟨path, (normalizeType t).type, (normalizeType t).nullable,
      rs.contains path, en⟩, ?_, ?_, ?_⟩
    · exact (match props with
        | none => []
        | some ps => walkList ps path ((req.getD []).map (joinPath path)))
    · rw [walk_eq, if_neg hpath]
      rfl
    · simp [List.contains, List.elem_eq_mem]
  · intro t ps req en path rs k v hkv pr hpr
    rw [walk_eq]
    exact List.mem_append.mpr (Or.inr (walkList_mem_of hkv hpr))

/-! ### The per-file loop and run aggregation -/

/-- Outcome of retrieving one side of a file and reading its text:
`absent` models `tryGitShow` failing (`ok: false`, content `null`);
`invalid` models retrieved content whose `JSON.parse` throws; `valid v`
models content parsing to the schema document `v` (`none` standing for the
JSON `null` document or any other non-object value, which `flatten`
ignores). -/
inductive SideContent where
  | absent
  | invalid
  | valid (value : Option SNode)

/-- The `ok` flag of `tryGitShow`. -/
def SideContent.ok : SideContent → Bool
  | .absent => false
  | _ => true

/-- `safeJsonParse` applied to a side's content. A missing file's content is
`null`, which `JSON.parse` coerces to the string `"null"` and parses to the
JSON `null` value, so an absent side parses successfully to `none`. -/
def parseSide : SideContent → Option (Option SNode)
  | .absent => some none
  | .invalid => none
  | .valid v => some v

/-- One file's report. -/
structure FileReport where
  file : String
  summary : Summary
  changes : List Change

/-- The `final` run report. -/
structure RunReport where
  base : String
  head : String
  dir : String
  summary : Summary
  reports : List FileReport

/-- `eventNameFromFile`: basename without the `.json` extension. -/
def eventNameFromFile (filePath : String) : String :=
  let base := (filePath.splitOn "/").getLastD ""
  if base.endsWith ".json" then base.dropRight 5 else base

/-- The body of the per-file loop: the file's report, and whether this file
sets the run-level `anyBlock` flag, following the source's branch order
(file added / file removed / invalid JSON / schema diff). -/
def processFile (cfg : PolicyConfig) (ownerTeams : List String) (path : String)
    (oldFile newFile : SideContent) : FileReport × Bool :=
  if !oldFile.ok && newFile.ok then
    ({ file := path,
       summary := { decision := "PASS", blocks := 0, warns := 0, passes := 1 },
       changes := [{ severity := sevForOwner cfg "FILE_ADDED" ownerTeams,
                     kind := "FILE_ADDED", path := path,
                     message := "Schema file added: " ++ path }] }, false)
  else if oldFile.ok && !newFile.ok then
    ({ file := path,
       summary := { decision := "FAIL", blocks := 1, warns := 0, passes := 0 },
       changes := [{ severity := sevForOwner cfg "FILE_REMOVED" ownerTeams,
                     kind := "FILE_REMOVED", path := path,
                     message := "Schema file removed: " ++ path }] }, true)
  else
    let oldParsed := parseSide oldFile
    let newParsed := parseSide newFile
    if oldParsed.isNone || newParsed.isNone then
      ({ file := path,
         summary := { decision := "FAIL", blocks := 1, warns := 0, passes := 0 },
         changes := [{ severity := sevForOwner cfg "INVALID_JSON" ownerTeams,
                       kind := "INVALID_JSON", path := path,
                       message := "Invalid JSON in "
                                  ++ (if oldParsed.isNone then "base" else "head")
                                  ++ " version of " ++ path ++ "." }] }, true)
    else
      let r := diff cfg ownerTeams (oldParsed.getD none) (newParsed.getD none)
      ({ file := path, summary := r.summary, changes := r.changes },
       decide (r.summary.blocks > 0))

/-- One iteration of the per-file loop for a given run: owner lookup,
retrieval of both sides, and `processFile`. -/
def fileStep (cfg : PolicyConfig) (owners : String → Option (List String))
    (b h : String) (retrieve : String → String → SideContent) (path : String) :
    FileReport × Bool :=
  processFile cfg ((owners (eventNameFromFile path)).getD []) path
    (retrieve b path) (retrieve h path)

/-- `args.dir || "schemas"`. -/
def dirOf (dirArg : Option String) : String :=
  match dirArg with
  | some d => if d = "" then "schemas" else d
  | none => "schemas"

/-- The whole run: argument check (exit 2 on a missing `--base`/`--head`),
the empty-changed-list short circuit, the per-file loop, and the final
reduction, returning the run report (absent on usage error) and the process
exit code. `retrieve rev path` stands for the external `tryGitShow`. -/
def runEventDiff (cfg : PolicyConfig) (owners : String → Option (List String))
    (base head dirArg : Option String)
    (retrieve : String → String → SideContent) (changed : List String) :
    Option RunReport × Nat :=
  if base.getD "" = "" ∨ head.getD "" = "" then
    (none, 2)
  else if changed.isEmpty then
    (some { base := base.getD "", head := head.getD "", dir := dirOf dirArg,
            summary := { decision := "PASS", blocks := 0, warns := 0, passes := 0 },
            reports := [] }, 0)
  else
    let step := fileStep cfg owners (base.getD "") (head.getD "") retrieve
    let acc := changed.foldl
      (fun acc path => (acc.1 ++ [(step path).1], acc.2 || (step path).2)) ([], false)
    let reports := acc.1
    let anyBlock := acc.2
    (some { base := base.getD "", head := head.getD "", dir := dirOf dirArg,
            summary := { decision := if anyBlock then "FAIL" else "PASS",
                         blocks := reports.foldl (fun a r => a + r.summary.blocks) 0,
                         warns := reports.foldl (fun a r => a + r.summary.warns) 0,
                         passes := reports.foldl (fun a r => a + r.summary.passes) 0 },
            reports := reports }, if anyBlock then 1 else 0)

theorem diff_decision_eq (cfg : PolicyConfig) (teams : List String)
    (o n : Option SNode) :
    (diff cfg teams o n).summary.decision
      = if (diff cfg teams o n).summary.blocks > 0 then "FAIL" else "PASS" := rfl

theorem decision_iff_of_eq {d : String} {b : Nat}
    (h : d = if b > 0 then "FAIL" else "PASS") :
    (d = "FAIL" ↔ b > 0) ∧ (d = "PASS" ↔ b = 0) := by
  by_cases hb : b > 0
  · rw [h, if_pos hb]
    exact ⟨⟨fun _ => hb, fun _ => rfl⟩,
      ⟨fun hfp => absurd hfp (by decide), fun h0 => by omega⟩⟩
  · rw [h, if_neg hb]
    exact ⟨⟨fun hfp => absurd hfp (by decide), fun hb2 => absurd hb2 hb⟩,
      ⟨fun _ => by omega, fun _ => rfl⟩⟩

theorem processFile_decision_iff (cfg : PolicyConfig) (teams : List String) (path : String)
    (oldFile newFile : SideContent) :
    ((processFile cfg teams path oldFile newFile).1.summary.decision = "FAIL"
      ↔ (processFile cfg teams path oldFile newFile).1.summary.blocks > 0)
    ∧ ((processFile cfg teams path oldFile newFile).1.summary.decision = "PASS"
      ↔ (processFile cfg teams path oldFile newFile).1.summary.blocks = 0) := by
  cases oldFile <;> cases newFile <;> exact decision_iff_of_eq rfl

theorem processFile_flag (cfg : PolicyConfig) (teams : List String) (path : String)
    (oldFile newFile : SideContent) :
    (processFile cfg teams path oldFile newFile).2
      = decide ((processFile cfg teams path oldFile newFile).1.summary.blocks > 0) := by
  cases oldFile <;> cases newFile <;> rfl

theorem foldl_loop_eq (step : String → FileReport × Bool) (l : List String) :
    ∀ (acc : List FileReport × Bool),
      l.foldl (fun acc path => (acc.1 ++ [(step path).1], acc.2 || (step path).2)) acc
        = (acc.1 ++ l.map (fun p => (step p).1), acc.2 || l.any (fun p => (step p).2)) := by
  induction l with
  | nil => intro acc; simp
  | cons p ps ih =>
    intro acc
    rw [List.foldl_cons, ih]
    simp [Bool.or_assoc]

theorem foldl_add_eq_sum (g : FileReport → Nat) (l : List FileReport) :
    ∀ (n : Nat), l.foldl (fun a r => a + g r) n = n + (l.map g).sum := by
  induction l with
  | nil => intro n; simp
  | cons r rs ih =>
    intro n
    rw [List.foldl_cons, ih, List.map_cons, List.sum_cons]
    omega

theorem runEventDiff_usage (cfg : PolicyConfig) (owners : String → Option (List String))
    {base head : Option String} (dirArg : Option String)
    (retrieve : String → String → SideContent) (changed : List String)
    (hu : base.getD "" = "" ∨ head.getD "" = "") :
    runEventDiff cfg owners base head dirArg retrieve changed = (none, 2) := by
  unfold runEventDiff
  rw [if_pos hu]

theorem runEventDiff_empty (cfg : PolicyConfig) (owners : String → Option (List String))
    {base head : Option String} (dirArg : Option String)
    (retrieve : String → String → SideContent) {changed : List String}
    (hu : ¬(base.getD "" = "" ∨ head.getD "" = "")) (hc : changed.isEmpty = true) :
    runEventDiff cfg owners base head dirArg retrieve changed
      = (some { base := base.getD "", head := head.getD "", dir := dirOf dirArg,
                summary := { decision := "PASS", blocks := 0, warns := 0, passes := 0 },
                reports := [] }, 0) := by
  unfold runEventDiff
  rw [if_neg hu, if_pos hc]

theorem runEventDiff_run (cfg : PolicyConfig) (owners : String → Option (List String))
    {base head : Option String} (dirArg : Option String)
    (retrieve : String → String → SideContent) {changed : List String}
    (hu : ¬(base.getD "" = "" ∨ head.getD "" = "")) (hc : ¬changed.isEmpty = true) :
    runEventDiff cfg owners base head dirArg retrieve changed
      = (some { base := base.getD "", head := head.getD "", dir := dirOf dirArg,
                summary := {
                  decision := if changed.any (fun p =>
                      (fileStep cfg owners (base.getD "") (head.getD "") retrieve p).2)
                    then "FAIL" else "PASS",
                  blocks := ((changed.map (fun p =>
                      (fileStep cfg owners (base.getD "") (head.getD "") retrieve p).1)).map
                      (fun r => r.summary.blocks)).sum,
                  warns := ((changed.map (fun p =>
                      (fileStep cfg owners (base.getD "") (head.getD "") retrieve p).1)).map
                      (fun r => r.summary.warns)).sum,
                  passes := ((changed.map (fun p =>
                      (fileStep cfg owners (base.getD "") (head.getD "") retrieve p).1)).map
                      (fun r => r.summary.passes)).sum },
                reports := changed.map (fun p =>
                  (fileStep cfg owners (base.getD "") (head.getD "") retrieve p).1) },
         if changed.any (fun p =>
             (fileStep cfg owners (base.getD "") (head.getD "") retrieve p).2)
           then 1 else 0) := by
  unfold runEventDiff
  rw [if_neg hu, if_neg hc]
  simp only [foldl_loop_eq, foldl_add_eq_sum, List.nil_append, Bool.false_or, Nat.zero_add]

/-- C5: every file report's decision is FAIL exactly when its blocks count is
positive and PASS otherwise; the run-level blocks/warns/passes are the sums
of the per-file counts; the run decision is FAIL exactly when some file
report has blocks > 0, else PASS; the exit code is 1 exactly when the run
decision is FAIL and 0 otherwise, with 2 reserved for a missing `--base` or
`--head` argument. -/
theorem claim_decision_aggregation_exit_codes (cfg : PolicyConfig)
    (owners : String → Option (List String)) (base head dirArg : Option String)
    (retrieve : String → String → SideContent) (changed : List String) :
    (∀ rpt, (runEventDiff cfg owners base head dirArg retrieve changed).1 = some rpt →
      ((∀ fr ∈ rpt.reports,
          (fr.summary.decision = "FAIL" ↔ fr.summary.blocks > 0)
          ∧ (fr.summary.decision = "PASS" ↔ fr.summary.blocks = 0))
        ∧ rpt.summary.blocks = (rpt.reports.map (fun r => r.summary.blocks)).sum
        ∧ rpt.summary.warns = (rpt.reports.map (fun r => r.summary.warns)).sum
        ∧ rpt.summary.passes = (rpt.reports.map (fun r => r.summary.passes)).sum
        ∧ (rpt.summary.decision = "FAIL" ↔ ∃ fr ∈ rpt.reports, fr.summary.blocks > 0)
        ∧ (rpt.summary.decision = "FAIL" ∨ rpt.summary.decision = "PASS")
        ∧ ((runEventDiff cfg owners base head dirArg retrieve changed).2
            = if rpt.summary.decision = "FAIL" then 1 else 0)))
    ∧ ((runEventDiff cfg owners base head dirArg retrieve changed).2 = 2
        ↔ (base.getD "" = "" ∨ head.getD "" = "")) := by
  have hPF : ("PASS" : String) ≠ "FAIL" := by decide
  have h02 : (0 : Nat) ≠ 2 := by decide
  have h12 : (1 : Nat) ≠ 2 := by decide
  by_cases hu : (base.getD "" = "" ∨ head.getD "" = "")
  · have h := runEventDiff_usage cfg owners dirArg retrieve changed hu
    constructor
    · intro rpt hr
      rw [h] at hr
      cases hr
    · rw [h]
      exact ⟨fun _ => hu, fun _ => rfl⟩
  · by_cases hc : changed.isEmpty = true
    · have h := runEventDiff_empty cfg owners dirArg retrieve hu hc
      constructor
      · intro rpt hr
        rw [h] at hr
        cases Option.some.inj hr
        refine ⟨?_, by simp, by simp, by simp, ?_, Or.inr rfl,
          by rw [h]; exact (if_neg hPF).symm⟩
        · intro fr hfr
          cases hfr
        · constructor
          · intro hfp
            exact absurd hfp hPF
          · rintro ⟨fr, hfr, _⟩
            cases hfr
      · rw [h]
        exact ⟨fun h2 => absurd h2 h02, fun hcond => absurd hcond hu⟩
    · have h := runEventDiff_run cfg owners dirArg retrieve hu hc
      have hflag : ∀ p, (fileStep cfg owners (base.getD "") (head.getD "") retrieve p).2
          = decide ((fileStep cfg owners (base.getD "") (head.getD "") retrieve p).1.summary.blocks > 0) :=
        fun p => processFile_flag cfg _ p _ _
      constructor
      · intro rpt hr
        rw [h] at hr
        cases Option.some.inj hr
        refine ⟨?_, rfl, rfl, rfl, ?_, ?_, ?_⟩
        · intro fr hfr
          obtain ⟨p, _, hfp⟩ := List.mem_map.mp hfr
          rw [← hfp]
          exact processFile_decision_iff cfg _ p _ _
        · show (if changed.any _ then "FAIL" else "PASS") = "FAIL" ↔ _
          by_cases ha : changed.any (fun p =>
              (fileStep cfg owners (base.getD "") (head.getD "") retrieve p).2) = true
          · rw [if_pos ha]
            refine ⟨fun _ => ?_, fun _ => rfl⟩
            obtain ⟨p, hp, hflagp⟩ := List.any_eq_true.mp ha
            refine ⟨(fileStep cfg owners (base.getD "") (head.getD "") retrieve p).1,
              List.mem_map_of_mem _ hp, ?_⟩
            rw [hflag p] at hflagp
            exact of_decide_eq_true hflagp
          · rw [if_neg ha]
            refine ⟨fun hfp => absurd hfp hPF, ?_⟩
            rintro ⟨fr, hfr, hbl⟩
            obtain ⟨p, hp, hfp⟩ := List.mem_map.mp hfr
            refine absurd (List.any_eq_true.mpr ⟨p, hp, ?_⟩) ha
            rw [hflag p, hfp]
            exact decide_eq_true hbl
        · show (if changed.any _ then "FAIL" else "PASS") = "FAIL"
            ∨ (if changed.any _ then "FAIL" else "PASS") = "PASS"
          split
          · exact Or.inl rfl
          · exact Or.inr rfl
        · rw [h]
          show (if changed.any _ then 1 else 0)
            = if (if changed.any _ then "FAIL" else "PASS") = "FAIL" then 1 else 0
          split
          · rw [if_pos rfl]
          · rfl
      · rw [h]
        constructor
        · intro h2
          have hne : ((if (changed.any fun p =>
                (fileStep cfg owners (base.getD "") (head.getD "") retrieve p).2) = true
              then 1 else 0) : Nat) ≠ 2 := by
            split
            · exact h12
            · exact h02
          exact absurd h2 hne
        · intro hcond
          exact absurd hcond hu

theorem sevForOwner_defaultConfig (key : String) (teams : List String) :
    sevForOwner defaultPolicyConfig key teams = (DEFAULT_POLICY key).getD .warn := by
  unfold sevForOwner
  have hfold : ∀ (l : List String) (d : Sev),
      l.foldl (applyOverride defaultPolicyConfig key) d = d := by
    intro l
    induction l with
    | nil => intro d; rfl
    | cons t ts ih =>
      intro d
      rw [List.foldl_cons]
      exact ih d
  rw [hfold]
  rfl

/-- The four mutually exclusive per-file outcomes, in the order the source
checks them. -/
inductive FileOutcome where
  | added
  | removed
  | invalidJson
  | compared
deriving DecidableEq, Repr

/-- Which branch of the per-file loop fires. -/
def classifyFile (oldFile newFile : SideContent) : FileOutcome :=
  if !oldFile.ok && newFile.ok then .added
  else if oldFile.ok && !newFile.ok then .removed
  else if (parseSide oldFile).isNone || (parseSide newFile).isNone then .invalidJson
  else .compared

theorem processFile_added (cfg : PolicyConfig) (teams : List String) (path : String)
    {newFile : SideContent} (h : newFile ≠ .absent) :
    processFile cfg teams path .absent newFile
      = ({ file := path,
           summary := { decision := "PASS", blocks := 0, warns := 0, passes := 1 },
           changes := [{ severity := sevForOwner cfg "FILE_ADDED" teams,
                         kind := "FILE_ADDED", path := path,
                         message := "Schema file added: " ++ path }] }, false) := by
  cases newFile
  · exact absurd rfl h
  · rfl
  · rfl

theorem processFile_removed (cfg : PolicyConfig) (teams : List String) (path : String)
    {oldFile : SideContent} (h : oldFile ≠ .absent) :
    processFile cfg teams path oldFile .absent
      = ({ file := path,
           summary := { decision := "FAIL", blocks := 1, warns := 0, passes := 0 },
           changes := [{ severity := sevForOwner cfg "FILE_REMOVED" teams,
                         kind := "FILE_REMOVED", path := path,
                         message := "Schema file removed: " ++ path }] }, true) := by
  cases oldFile
  · exact absurd rfl h
  · rfl
  · rfl

theorem classifyFile_iff (oldFile newFile : SideContent) :
    (classifyFile oldFile newFile = .added ↔ oldFile = .absent ∧ newFile ≠ .absent)
    ∧ (classifyFile oldFile newFile = .removed ↔ oldFile ≠ .absent ∧ newFile = .absent)
    ∧ (classifyFile oldFile newFile = .invalidJson ↔
        ((oldFile = .invalid ∧ newFile ≠ .absent) ∨ (newFile = .invalid ∧ oldFile ≠ .absent)))
    ∧ (classifyFile oldFile newFile = .compared ↔
        ((oldFile = .absent ∧ newFile = .absent)
          ∨ ∃ v w, oldFile = .valid v ∧ newFile = .valid w)) := by
  cases oldFile <;> cases newFile <;>
    simp [classifyFile, parseSide, SideContent.ok]

/-- C6: each changed file yields exactly one of four outcomes, checked in
order: absent-at-base/present-at-head gives a single FILE_ADDED change with
policy-resolved severity (pass under the default policy) and decision PASS;
present/absent gives a single FILE_REMOVED change (block by default) and
decision FAIL; a parse failure on either side gives a single INVALID_JSON
change (block by default), decision FAIL, naming the failing side (base when
the old side failed, else head); otherwise the file is handed to the schema
differ — and the loop maps every changed file to its own report, so one
file's failure never stops the rest. -/
theorem claim_per_file_outcomes (cfg : PolicyConfig) (teams : List String) (path : String)
    (oldFile newFile : SideContent) :
    ((classifyFile oldFile newFile = .added ↔ oldFile = .absent ∧ newFile ≠ .absent)
      ∧ (classifyFile oldFile newFile = .removed ↔ oldFile ≠ .absent ∧ newFile = .absent)
      ∧ (classifyFile oldFile newFile = .invalidJson ↔
          ((oldFile = .invalid ∧ newFile ≠ .absent) ∨ (newFile = .invalid ∧ oldFile ≠ .absent)))
      ∧ (classifyFile oldFile newFile = .compared ↔
          ((oldFile = .absent ∧ newFile = .absent)
            ∨ ∃ v w, oldFile = .valid v ∧ newFile = .valid w)))
    ∧ (classifyFile oldFile newFile = .added →
        processFile cfg teams path oldFile newFile
          = ({ file := path,
               summary := { decision := "PASS", blocks := 0, warns := 0, passes := 1 },
               changes := [{ severity := sevForOwner cfg "FILE_ADDED" teams,
                             kind := "FILE_ADDED", path := path,
                             message := "Schema file added: " ++ path }] }, false))
    ∧ (classifyFile oldFile newFile = .removed →
        processFile cfg teams path oldFile newFile
          = ({ file := path,
               summary := { decision := "FAIL", blocks := 1, warns := 0, passes := 0 },
               changes := [{ severity := sevForOwner cfg "FILE_REMOVED" teams,
                             kind := "FILE_REMOVED", path := path,
                             message := "Schema file removed: " ++ path }] }, true))
    ∧ (oldFile = .invalid → newFile ≠ .absent →
        processFile cfg teams path oldFile newFile
          = ({ file := path,
               summary := { decision := "FAIL", blocks := 1, warns := 0, passes := 0 },
               changes := [{ severity := sevForOwner cfg "INVALID_JSON" teams,
                             kind := "INVALID_JSON", path := path,
                             message := "Invalid JSON in base version of "
                                        ++ path ++ "." }] }, true))
    ∧ (newFile = .invalid → oldFile ≠ .absent → oldFile ≠ .invalid →
        processFile cfg teams path oldFile newFile
          = ({ file := path,
               summary := { decision := "FAIL", blocks := 1, warns := 0, passes := 0 },
               changes := [{ severity := sevForOwner cfg "INVALID_JSON" teams,
                             kind := "INVALID_JSON", path := path,
                             message := "Invalid JSON in head version of "
                                        ++ path ++ "." }] }, true))
    ∧ (classifyFile oldFile newFile = .compared →
        processFile cfg teams path oldFile newFile
          = ({ file := path,
               summary := (diff cfg teams ((parseSide oldFile).getD none)
                 ((parseSide newFile).getD none)).summary,
               changes := (diff cfg teams ((parseSide oldFile).getD none)
                 ((parseSide newFile).getD none)).changes },
             decide ((diff cfg teams ((parseSide oldFile).getD none)
               ((parseSide newFile).getD none)).summary.blocks > 0)))
    ∧ (sevForOwner defaultPolicyConfig "FILE_ADDED" teams = Sev.pass
        ∧ sevForOwner defaultPolicyConfig "FILE_REMOVED" teams = Sev.block
        ∧ sevForOwner defaultPolicyConfig "INVALID_JSON" teams = Sev.block)
    ∧ (∀ (owners : String → Option (List String)) (b h dirArg : Option String)
        (retrieve : String → String → SideContent) (changed : List String) rpt,
        (runEventDiff cfg owners b h dirArg retrieve changed).1 = some rpt →
        rpt.reports = changed.map (fun p =>
          (fileStep cfg owners (b.getD "") (h.getD "") retrieve p).1)) := by
  refine ⟨classifyFile_iff oldFile newFile, ?_, ?_, ?_, ?_, ?_,
    ⟨sevForOwner_defaultConfig _ teams, sevForOwner_defaultConfig _ teams,
      sevForOwner_defaultConfig _ teams⟩, ?_⟩
  · intro hcl
    obtain ⟨ho, hn⟩ := ((classifyFile_iff oldFile newFile).1).mp hcl
    subst ho
    exact processFile_added cfg teams path hn
  · intro hcl
    obtain ⟨ho, hn⟩ := ((classifyFile_iff oldFile newFile).2.1).mp hcl
    subst hn
    exact processFile_removed cfg teams path ho
  · intro ho hn
    subst ho
    cases newFile
    · exact absurd rfl hn
    · rfl
    · rfl
  · intro hn ho hoi
    subst hn
    cases oldFile
    · exact absurd rfl ho
    · exact absurd rfl hoi
    · rfl
  · intro hcl
    rcases ((classifyFile_iff oldFile newFile).2.2.2).mp hcl with ⟨ho, hn⟩ | ⟨v, w, ho, hn⟩
    · subst ho; subst hn; rfl
    · subst ho; subst hn; rfl
  · intro owners b h dirArg retrieve changed rpt hr
    by_cases hu : (b.getD "" = "" ∨ h.getD "" = "")
    · rw [runEventDiff_usage cfg owners dirArg retrieve changed hu] at hr
      cases hr
    · by_cases hc : changed.isEmpty = true
      · rw [runEventDiff_empty cfg owners dirArg retrieve hu hc] at hr
        cases Option.some.inj hr
        rw [List.isEmpty_iff.mp hc]
        rfl
      · rw [runEventDiff_run cfg owners dirArg retrieve hu hc] at hr
        cases Option.some.inj hr
        rfl

/-- C9: an empty changed-file list short-circuits the run to a report with
decision PASS, zero counts and no per-file reports, exit code 0, and the
result never depends on the retrieval collaborator. -/
theorem claim_empty_changed_list (cfg : PolicyConfig)
    (owners : String → Option (List String)) (base head dirArg : Option String)
    (retrieve retrieve2 : String → String → SideContent) :
    (¬(base.getD "" = "" ∨ head.getD "" = "") →
      runEventDiff cfg owners base head dirArg retrieve [] =
        (some { base := base.getD "", head := head.getD "", dir := dirOf dirArg,
                summary := { decision := "PASS", blocks := 0, warns := 0, passes := 0 },
                reports := [] }, 0))
    ∧ runEventDiff cfg owners base head dirArg retrieve []
        = runEventDiff cfg owners base head dirArg retrieve2 [] := by
  constructor
  · intro hu
    exact runEventDiff_empty cfg owners dirArg retrieve hu rfl
  · by_cases hu : (base.getD "" = "" ∨ head.getD "" = "")
    · rw [runEventDiff_usage cfg owners dirArg retrieve [] hu,
        runEventDiff_usage cfg owners dirArg retrieve2 [] hu]
    · rw [runEventDiff_empty cfg owners dirArg retrieve hu
          (rfl : (([] : List String)).isEmpty = true),
        runEventDiff_empty cfg owners dirArg retrieve2 hu
          (rfl : (([] : List String)).isEmpty = true)]

/-- C10: a changed file absent at both revisions reports no error: neither
the FILE_ADDED nor the FILE_REMOVED branch fires (the pair classifies as a
normal comparison), the null contents parse successfully to the JSON null
value, and diffing null against null gives a normal report with zero
changes, all counts zero and decision PASS, without raising the run-level
block flag. -/
theorem claim_both_absent_pass (cfg : PolicyConfig) (teams : List String) (path : String) :
    processFile cfg teams path .absent .absent
      = ({ file := path,
           summary := { decision := "PASS", blocks := 0, warns := 0, passes := 0 },
           changes := [] }, false)
    ∧ parseSide .absent = some none
    ∧ diff cfg teams none none
      = { summary := { decision := "PASS", blocks := 0, warns := 0, passes := 0 },
          changes := [] }
    ∧ classifyFile .absent .absent = .compared :=
  ⟨rfl, rfl, rfl, rfl⟩

end EventDiff
